import Mathlib

/-!
Verification of the `pool` repository (slot allocator, fixed-size buffer
pools, weighted limiter) against its natural-language specification.

The Go code is shallowly embedded with sequential semantics: each operation
is a pure function from the pool/limiter state to a new state; a panic is an
error value; a `Get` that would block returns `none` (or a dedicated
`blocked` constructor).  Machine integers (`int`, `int32`, `int64`) are
modelled as `Int`; slot flags keep the source's encoding `0 = free`,
`1 = claimed`.
-/

namespace PoolSpec

/-- The in-order scan loop shared by the Go sources: examine indices
`start, start+1, ..., start+n-1` and return the first one satisfying `pred`
(`none` when a full pass finds nothing).  This is the sequential meaning of
`for i := range ...` loops that return at the first successful match. -/
def firstMatch (pred : Nat → Bool) : Nat → Nat → Option Nat
  | _, 0 => none
  | start, n+1 => if pred start then some start else firstMatch pred (start+1) n

theorem firstMatch_some {pred : Nat → Bool} {start n i : Nat}
    (h : firstMatch pred start n = some i) :
    pred i = true ∧ start ≤ i ∧ i < start + n := by
  induction n generalizing start with
  | zero => simp [firstMatch] at h
  | succ m ih =>
    rw [firstMatch] at h
    by_cases hp : pred start
    · simp only [hp, if_true, Option.some.injEq] at h
      subst h
      exact ⟨hp, Nat.le_refl _, by omega⟩
    · simp only [hp, if_false] at h
      obtain ⟨h1, h2, h3⟩ := ih h
      exact ⟨h1, by omega, by omega⟩

theorem firstMatch_eq_none {pred : Nat → Bool} {start n : Nat}
    (h : ∀ j, start ≤ j → j < start + n → pred j = false) :
    firstMatch pred start n = none := by
  induction n generalizing start with
  | zero => rfl
  | succ m ih =>
    rw [firstMatch]
    have h0 : pred start = false := h start (Nat.le_refl _) (by omega)
    simp only [h0, Bool.false_eq_true, if_false]
    exact ih fun j hj hj2 => h j (by omega) (by omega)

theorem firstMatch_eq_some {pred : Nat → Bool} {start n i : Nat}
    (hlo : start ≤ i) (hhi : i < start + n) (hp : pred i = true)
    (hmin : ∀ j, start ≤ j → j < i → pred j = false) :
    firstMatch pred start n = some i := by
  induction n generalizing start with
  | zero => omega
  | succ m ih =>
    rw [firstMatch]
    by_cases h0 : pred start
    · have hsi : start = i := by
        by_contra hne
        have hf : pred start = false := hmin start (Nat.le_refl _) (by omega)
        rw [hf] at h0
        exact Bool.false_ne_true h0
      subst hsi
      simp [h0]
    · have hne : start ≠ i := by
        intro e
        rw [e, hp] at h0
        exact h0 rfl
      simp only [h0, Bool.false_eq_true, if_false]
      exact ih (by omega) (by omega) fun j hj hj2 => hmin j (by omega) hj2

/-! ## IndexPool (pool.go)

`indices []int32`: entry `0` means the index is available (Free), `1` means
it has been handed out (Claimed). -/

structure IndexPool where
  indices : List Int
deriving Repr, DecidableEq

/-- The error taxonomy of the pools' panics. -/
inductive PoolErr where
  | outOfRange
  | doubleRelease
  | foreignResource
deriving Repr, DecidableEq

/-- `IndexPool.Get`: scan for the first index whose flag CASes from 0 to 1
and return it; if a full pass finds nothing the goroutine blocks (`none`). -/
def indexPoolGet (p : IndexPool) : Option (Nat × IndexPool) :=
  match firstMatch (fun i => p.indices[i]? == some 0) 0 p.indices.length with
  | some i => some (i, ⟨p.indices.set i 1⟩)
  | none => none

/-- `IndexPool.Put`: panics (error result, state otherwise as the code leaves
it) when `i` is out of `[0, n)` or when slot `i` is already free; otherwise
stores 0 into the flag — but only under the source's guard `i > 0 && i <
len(p.indices)`, so the store is skipped when `i == 0`. -/
def indexPoolPut (p : IndexPool) (i : Int) : IndexPool × Option PoolErr :=
  if i < 0 ∨ (p.indices.length : Int) ≤ i then
    (p, some .outOfRange)
  else if p.indices[i.toNat]? == some 0 then
    (p, some .doubleRelease)
  else if 0 < i ∧ i < (p.indices.length : Int) then
    (⟨p.indices.set i.toNat 0⟩, none)
  else
    (p, none)

/-- `NewIndexPool`: `n` must be positive; all flags start at 0 (Free). -/
def newIndexPool (n : Int) : Option IndexPool :=
  if n ≤ 0 then none else some ⟨List.replicate n.toNat 0⟩

/-- C1: the spec says `Put(i)` on a Claimed slot `i` transitions it to Free.
The code's guard `i > 0 && i < len(p.indices)` skips the store when
`i = 0`: on a capacity-1 pool with slot 0 Claimed, `Put 0` returns without
error yet leaves slot 0 Claimed (flag still 1), so the bookkeeping does not
show released slots as Free. -/
theorem put_zero_leaves_slot_claimed :
    indexPoolPut ⟨[1]⟩ 0 = (⟨[1]⟩, none) ∧ (⟨[1]⟩ : IndexPool) ≠ ⟨[0]⟩ := by
  decide

/-- C2: the round-trip property fails on a capacity-1 pool: from the idle
pool, `Get` returns index 0 (claiming slot 0) and `Put 0` completes without
error but leaves slot 0 Claimed, so the immediately following `Get` finds no
free slot and blocks (`none`) instead of succeeding. -/
theorem roundtrip_then_get_blocks :
    indexPoolGet ⟨[0]⟩ = some (0, ⟨[1]⟩) ∧
    indexPoolPut ⟨[1]⟩ 0 = (⟨[1]⟩, none) ∧
    indexPoolGet ⟨[1]⟩ = none := by
  decide

/-- C4: `Put` fails with the out-of-range error whenever `i < 0` or
`i ≥ N`, fails with the double-release error when `i ∈ [0, N)` and slot `i`
is Free, and in both cases returns the pool state unchanged. -/
theorem put_error_cases (p : IndexPool) (i : Int) :
    ((i < 0 ∨ (p.indices.length : Int) ≤ i) →
      indexPoolPut p i = (p, some .outOfRange)) ∧
    (0 ≤ i → i < (p.indices.length : Int) → p.indices[i.toNat]? = some 0 →
      indexPoolPut p i = (p, some .doubleRelease)) := by
  constructor
  · intro h
    simp [indexPoolPut, h]
  · intro h0 hlen hfree
    have hnot : ¬(i < 0 ∨ (p.indices.length : Int) ≤ i) := by omega
    simp [indexPoolPut, hnot, hfree]

/-- Witness for `put_error_cases` on a 2-slot pool: `Put 5` is out of range,
and `Put 0` with slot 0 Free is a double release; both leave the pool as is. -/
theorem put_error_cases_witness :
    indexPoolPut ⟨[0, 1]⟩ 5 = (⟨[0, 1]⟩, some .outOfRange) ∧
    indexPoolPut ⟨[0, 1]⟩ 0 = (⟨[0, 1]⟩, some .doubleRelease) :=
  ⟨(put_error_cases ⟨[0, 1]⟩ 5).1 (Or.inr (by decide)),
   (put_error_cases ⟨[0, 1]⟩ 0).2 (by decide) (by decide) (by decide)⟩

/-! ## Limiter (limiter source, `Limiter` / `MemLimiter`)

`inuse`, `limit` are `int64` fields.  `Get` panics on invalid `n`, succeeds
when the CAS lands with `inuse + n ≤ limit`, and otherwise blocks; `Put`
decrements `inuse` first (via `atomic.AddInt64`) and only then checks for
underflow, so a panicking `Put` leaves the decrement in place. -/

structure Limiter where
  inuse : Int
  limit : Int
deriving Repr, DecidableEq

inductive LimiterErr where
  | negativeGet
  | overLimit
  | negativePut
  | underflow
deriving Repr, DecidableEq

/-- Result of `Limiter.Get` under sequential semantics: a panic, a caller
blocked forever (no concurrent `Put` can arrive), or success with the new
limiter state. -/
inductive LimiterGetResult where
  | panicked (e : LimiterErr)
  | blocked
  | ok (l : Limiter)
deriving Repr, DecidableEq

/-- `Limiter.Get`: panic on `n < 0` or `n > limit`; otherwise the CAS loop —
which, run sequentially, succeeds exactly when `inuse + n ≤ limit` and
blocks forever otherwise. -/
def limiterGet (l : Limiter) (n : Int) : LimiterGetResult :=
  if n < 0 then .panicked .negativeGet
  else if l.limit < n then .panicked .overLimit
  else if l.inuse + n ≤ l.limit then .ok ⟨l.inuse + n, l.limit⟩
  else .blocked

/-- `Limiter.Put`: panic on `n < 0` (before any mutation); otherwise
`atomic.AddInt64(&l.inuse, -n)` always lands, and the underflow panic is
raised only after it, leaving the negative counter in place. -/
def limiterPut (l : Limiter) (n : Int) : Limiter × Option LimiterErr :=
  if n < 0 then (l, some .negativePut)
  else if l.inuse - n < 0 then (⟨l.inuse - n, l.limit⟩, some .underflow)
  else (⟨l.inuse - n, l.limit⟩, none)

/-- `NewLimiter`: the limit must be non-negative; `inuse` starts at 0. -/
def newLimiter (limit : Int) : Option Limiter :=
  if limit < 0 then none else some ⟨0, limit⟩

/-- One call in a sequence of `Get`/`Put` operations. -/
inductive LimiterOp where
  | get (n : Int)
  | put (n : Int)
deriving Repr, DecidableEq

/-- The argument of a call. -/
def LimiterOp.arg : LimiterOp → Int
  | .get n => n
  | .put n => n

/-- Two-complement wrap-around of Go's `int64` arithmetic: reduce into
`[-2^63, 2^63)`.  (`9223372036854775808 = 2^63`,
`18446744073709551616 = 2^64`.) -/
def wrap64 (x : Int) : Int :=
  (x + 9223372036854775808) % 18446744073709551616 - 9223372036854775808

theorem wrap64_eq_self {x : Int}
    (h1 : -9223372036854775808 ≤ x) (h2 : x < 9223372036854775808) :
    wrap64 x = x := by
  unfold wrap64
  rw [Int.emod_eq_of_lt (by omega) (by omega)]
  omega

/-- `Limiter.Get` with the source's `int64` arithmetic taken exactly:
`new := inuse + int64(n)` wraps modulo `2^64`.  `limiterGet` above is this
function restricted to the regime where the sum cannot wrap (see
`limiterGet_agrees_in_range`). -/
def limiter64Get (l : Limiter) (n : Int) : LimiterGetResult :=
  if n < 0 then .panicked .negativeGet
  else if l.limit < n then .panicked .overLimit
  else if wrap64 (l.inuse + n) ≤ l.limit then .ok ⟨wrap64 (l.inuse + n), l.limit⟩
  else .blocked

/-- `Limiter.Put` with the `int64` subtraction `inuse - int64(n)` wrapping
modulo `2^64`; the mutation still lands before the underflow check. -/
def limiter64Put (l : Limiter) (n : Int) : Limiter × Option LimiterErr :=
  if n < 0 then (l, some .negativePut)
  else if wrap64 (l.inuse - n) < 0 then
    (⟨wrap64 (l.inuse - n), l.limit⟩, some .underflow)
  else
    (⟨wrap64 (l.inuse - n), l.limit⟩, none)

/-- On `int64`-representable states that cannot overflow the addition, the
wrapping and non-wrapping readings of `Get` agree exactly. -/
theorem limiterGet_agrees_in_range (l : Limiter) (n : Int)
    (h1 : 0 ≤ l.inuse) (h2 : 0 ≤ n)
    (h3 : l.inuse + n < 9223372036854775808) :
    limiter64Get l n = limiterGet l n := by
  unfold limiter64Get limiterGet
  rw [wrap64_eq_self (by omega) (by omega)]

/-- On states where the subtraction stays in `int64` range, the wrapping and
non-wrapping readings of `Put` agree exactly. -/
theorem limiterPut_agrees_in_range (l : Limiter) (n : Int)
    (h1 : -9223372036854775808 ≤ l.inuse - n)
    (h2 : l.inuse - n < 9223372036854775808) :
    limiter64Put l n = limiterPut l n := by
  unfold limiter64Put limiterPut
  rw [wrap64_eq_self (by omega) (by omega)]

/-- Run one call of the wrapping model; `none` when the call panics or
blocks (in either case the sequence does not complete). -/
def limiter64RunOp (l : Limiter) : LimiterOp → Option Limiter
  | .get n =>
    match limiter64Get l n with
    | .ok l2 => some l2
    | _ => none
  | .put n =>
    match limiter64Put l n with
    | (l2, none) => some l2
    | (_, some _) => none

/-- Run a whole sequence of calls of the wrapping model. -/
def limiter64Run (l : Limiter) (ops : List LimiterOp) : Option Limiter :=
  match ops with
  | [] => some l
  | op :: rest =>
    match limiter64RunOp l op with
    | some l2 => limiter64Run l2 rest
    | none => none

/-- The limiter invariant, together with the capacity bound under which no
reachable `int64` addition can wrap (`4611686018427387904 = 2^62`). -/
def limiterInv (l : Limiter) : Prop :=
  0 ≤ l.inuse ∧ l.inuse ≤ l.limit ∧ l.limit < 4611686018427387904

theorem limiter64RunOp_inv {l l2 : Limiter} {op : LimiterOp}
    (harg : -9223372036854775808 ≤ op.arg ∧ op.arg < 9223372036854775808)
    (hinv : limiterInv l) (h : limiter64RunOp l op = some l2) :
    limiterInv l2 ∧ l2.limit = l.limit := by
  obtain ⟨h0, h1, h2⟩ := hinv
  cases op with
  | get n =>
    simp only [LimiterOp.arg] at harg
    simp only [limiter64RunOp] at h
    cases hg : limiter64Get l n with
    | panicked e => rw [hg] at h; simp at h
    | blocked => rw [hg] at h; simp at h
    | ok l3 =>
      rw [hg] at h
      simp only [Option.some.injEq] at h
      subst h
      unfold limiter64Get at hg
      split_ifs at hg with hn hover hfits
      injection hg with hinj
      subst hinj
      -- with 0 ≤ inuse ≤ limit < 2^62 and 0 ≤ n ≤ limit, the sum cannot wrap
      have hw : wrap64 (l.inuse + n) = l.inuse + n :=
        wrap64_eq_self (by omega) (by omega)
      rw [hw] at hfits ⊢
      exact ⟨⟨(by omega : (0 : Int) ≤ l.inuse + n),
        (by omega : l.inuse + n ≤ l.limit), h2⟩, rfl⟩
  | put n =>
    simp only [LimiterOp.arg] at harg
    simp only [limiter64RunOp] at h
    cases hp : limiter64Put l n with
    | mk l3 e =>
      rw [hp] at h
      cases e with
      | some err => simp at h
      | none =>
        simp only [Option.some.injEq] at h
        subst h
        unfold limiter64Put at hp
        split_ifs at hp with hn hunder
        · exact absurd (congrArg Prod.snd hp) (by simp)
        · exact absurd (congrArg Prod.snd hp) (by simp)
        · have hl3 : l3 = ⟨wrap64 (l.inuse - n), l.limit⟩ :=
            (congrArg Prod.fst hp).symm
          subst hl3
          -- with 0 ≤ inuse ≤ limit < 2^62 and 0 ≤ n < 2^63, the
          -- subtraction cannot wrap
          have hw : wrap64 (l.inuse - n) = l.inuse - n :=
            wrap64_eq_self (by omega) (by omega)
          rw [hw] at hunder ⊢
          exact ⟨⟨(by omega : (0 : Int) ≤ l.inuse - n),
            (by omega : l.inuse - n ≤ l.limit), h2⟩, rfl⟩

theorem limiter64Run_inv {l l2 : Limiter} {ops : List LimiterOp}
    (hargs : ∀ op ∈ ops,
      -9223372036854775808 ≤ op.arg ∧ op.arg < 9223372036854775808)
    (hinv : limiterInv l) (h : limiter64Run l ops = some l2) :
    limiterInv l2 ∧ l2.limit = l.limit := by
  induction ops generalizing l with
  | nil =>
    simp only [limiter64Run, Option.some.injEq] at h
    subst h
    exact ⟨hinv, rfl⟩
  | cons op rest ih =>
    unfold limiter64Run at h
    cases hstep : limiter64RunOp l op with
    | none => rw [hstep] at h; cases h
    | some lmid =>
      rw [hstep] at h
      obtain ⟨hmid, hlim⟩ :=
        limiter64RunOp_inv (hargs op (List.mem_cons_self op rest)) hinv hstep
      obtain ⟨hfin, hlim2⟩ :=
        ih (fun o ho => hargs o (List.mem_cons_of_mem op ho)) hmid h
      exact ⟨hfin, hlim2.trans hlim⟩

/-- C3, refuted as stated: with capacity `C = 2^63 - 1` (accepted by the
constructor), the sequence `Get (2^63-1); Get (2^63-1)` completes without
panicking — the second call's int64 sum `inuse + n` wraps to `-2`, which
passes the `new <= l.limit` check and the CAS lands — leaving the in-use
counter at `-2`, violating `0 ≤ U`. -/
theorem limiter_inuse_bounded_counterexample :
    newLimiter 9223372036854775807 = some ⟨0, 9223372036854775807⟩ ∧
    limiter64Run ⟨0, 9223372036854775807⟩
      [.get 9223372036854775807, .get 9223372036854775807] =
      some ⟨-2, 9223372036854775807⟩ ∧
    ¬(0 ≤ (-2 : Int)) := by
  decide

/-- C3 amended: for a limiter constructed with capacity
`0 ≤ C < 2^62 = 4611686018427387904` — small enough that no sum of two
in-range values can overflow int64 — along any sequence of `Get`/`Put`
calls with int64-representable arguments that completes without panicking
(the sequence `pre ++ suf` runs to completion), the in-use counter
satisfies `0 ≤ U ≤ C` at every observation point — after the prefix `pre`
of calls, including initially (`pre = []`). -/
theorem limiter_inuse_bounded_amended (C : Int) (l0 lmid lfin : Limiter)
    (pre suf : List LimiterOp)
    (hC : C < 4611686018427387904)
    (hargs : ∀ op ∈ pre ++ suf,
      -9223372036854775808 ≤ op.arg ∧ op.arg < 9223372036854775808)
    (hnew : newLimiter C = some l0)
    (hfull : limiter64Run l0 (pre ++ suf) = some lfin)
    (hpre : limiter64Run l0 pre = some lmid) :
    0 ≤ lmid.inuse ∧ lmid.inuse ≤ C := by
  unfold newLimiter at hnew
  split_ifs at hnew with hCneg
  simp only [Option.some.injEq] at hnew
  subst hnew
  have h0 : limiterInv ⟨0, C⟩ :=
    ⟨le_refl 0, (by omega : (0 : Int) ≤ C), (by omega : C < 4611686018427387904)⟩
  obtain ⟨⟨ha, hb, _⟩, hlim⟩ := limiter64Run_inv
    (fun o ho => hargs o (List.mem_append_left suf ho)) h0 hpre
  rw [hlim] at hb
  exact ⟨ha, hb⟩

/-- Witness for `limiter_inuse_bounded_amended`: capacity 10, sequence
`Get 10; Put 1` then `Get 1`; after the prefix the counter is 9, within
`[0, 10]`. -/
theorem limiter_inuse_bounded_amended_witness :
    0 ≤ (⟨9, 10⟩ : Limiter).inuse ∧ (⟨9, 10⟩ : Limiter).inuse ≤ 10 :=
  limiter_inuse_bounded_amended 10 ⟨0, 10⟩ ⟨9, 10⟩ ⟨10, 10⟩
    [.get 10, .put 1] [.get 1] (by decide) (by decide) (by decide)
    (by decide) (by decide)

/-- C7: `Limiter.Get n` panics immediately (it neither blocks nor succeeds)
when `n < 0` or `n > C`; and whenever the limiter satisfies its invariant
`0 ≤ U` and `0 ≤ n` with `U + n ≤ C`, `Get n` succeeds and sets the counter
to `U + n` — in particular `n = C` on an empty limiter succeeds. -/
theorem limiter_get_validation (l : Limiter) (n : Int) (hinv : 0 ≤ l.inuse) :
    ((n < 0 ∨ l.limit < n) → ∃ e, limiterGet l n = .panicked e) ∧
    (0 ≤ n → l.inuse + n ≤ l.limit →
      limiterGet l n = .ok ⟨l.inuse + n, l.limit⟩) := by
  constructor
  · intro h
    unfold limiterGet
    rcases h with h | h
    · exact ⟨.negativeGet, by simp [h]⟩
    · have hn : ¬n < 0 ∨ n < 0 := em _ |>.symm
      by_cases hneg : n < 0
      · exact ⟨.negativeGet, by simp [hneg]⟩
      · exact ⟨.overLimit, by simp [hneg, h]⟩
  · intro hn hfits
    have h1 : ¬n < 0 := by omega
    have h2 : ¬l.limit < n := by omega
    simp [limiterGet, h1, h2, hfits]

/-- Witness for `limiter_get_validation`: on a fresh limiter of capacity 10,
`Get 11` panics and `Get 10` succeeds filling the limiter. -/
theorem limiter_get_validation_witness :
    (∃ e, limiterGet ⟨0, 10⟩ 11 = .panicked e) ∧
    limiterGet ⟨0, 10⟩ 10 = .ok ⟨10, 10⟩ :=
  ⟨(limiter_get_validation ⟨0, 10⟩ 11 (by decide)).1 (Or.inr (by decide)),
   (limiter_get_validation ⟨0, 10⟩ 10 (by decide)).2 (by decide) (by decide)⟩

/-- C9: when `Put n` underflows (`U - n < 0`, with valid `n ≥ 0`), the
counter has already been decremented to the negative value when the panic is
raised and is not restored: the limiter is left with `U < 0`. -/
theorem limiter_put_underflow_keeps_decrement (l : Limiter) (n : Int)
    (hn : 0 ≤ n) (hunder : l.inuse - n < 0) :
    limiterPut l n = (⟨l.inuse - n, l.limit⟩, some .underflow) ∧
    (limiterPut l n).1.inuse < 0 := by
  have h1 : ¬n < 0 := by omega
  constructor
  · simp [limiterPut, h1, hunder]
  · simp [limiterPut, h1, hunder]

/-- Witness for `limiter_put_underflow_keeps_decrement`: `Put 3` on an empty
limiter of capacity 5 leaves the counter at `-3` alongside the panic. -/
theorem limiter_put_underflow_keeps_decrement_witness :
    limiterPut ⟨0, 5⟩ 3 = (⟨-3, 5⟩, some .underflow) ∧
    (limiterPut ⟨0, 5⟩ 3).1.inuse < 0 :=
  limiter_put_underflow_keeps_decrement ⟨0, 5⟩ 3 (by decide) (by decide)

/-! ## MemLimiter (limiter source)

`MemLimiter.Get(n)` is `l.Get(n)` followed by `make([]byte, n)`;
`MemLimiter.Put(b)` is `l.Put(len(b))`.  A Go slice from `make([]byte, n)`
has length and capacity `n`. -/

/-- A Go byte slice as `MemLimiter` sees it: its contents and its capacity
(the data pointer is irrelevant — `MemLimiter` never inspects it). -/
structure GoSlice where
  data : List Int
  cap : Nat
deriving Repr, DecidableEq

/-- `make([]byte, n)`: `n` zero bytes, capacity `n`. -/
def goMake (n : Nat) : GoSlice :=
  ⟨List.replicate n 0, n⟩

structure MemLimiter where
  l : Limiter
deriving Repr, DecidableEq

inductive MemGetResult where
  | panicked (e : LimiterErr)
  | blocked
  | ok (b : GoSlice) (m : MemLimiter)
deriving Repr, DecidableEq

/-- `MemLimiter.Get`: reserve `n` units, then allocate a fresh buffer. -/
def memLimiterGet (m : MemLimiter) (n : Int) : MemGetResult :=
  match limiterGet m.l n with
  | .panicked e => .panicked e
  | .blocked => .blocked
  | .ok l2 => .ok (goMake n.toNat) ⟨l2⟩

/-- `MemLimiter.Put`: release `len(b)` units; no identity check at all. -/
def memLimiterPut (m : MemLimiter) (b : GoSlice) : MemLimiter × Option LimiterErr :=
  match limiterPut m.l (b.data.length : Int) with
  | (l2, e) => (⟨l2⟩, e)

/-- C8: when capacity allows, `MemLimiter.Get n` returns a fresh all-zero
buffer of length and capacity exactly `n` after reserving `n` units; and for
any byte slice `b` whatsoever — from `Get` or made elsewhere —
`MemLimiter.Put b` decrements the in-use counter by exactly `len(b)`, with
no provenance check. -/
theorem memlimiter_get_put (m : MemLimiter) (n : Int)
    (hn : 0 ≤ n) (hinv : 0 ≤ m.l.inuse) (hfits : m.l.inuse + n ≤ m.l.limit) :
    (memLimiterGet m n = .ok ⟨List.replicate n.toNat 0, n.toNat⟩
        ⟨⟨m.l.inuse + n, m.l.limit⟩⟩ ∧ (n.toNat : Int) = n) ∧
    ∀ b : GoSlice, (memLimiterPut m b).1.l.inuse = m.l.inuse - b.data.length := by
  refine ⟨⟨?_, Int.toNat_of_nonneg hn⟩, ?_⟩
  · have hok := (limiter_get_validation m.l n hinv).2 hn hfits
    simp [memLimiterGet, hok, goMake]
  · intro b
    have hb : ¬(b.data.length : Int) < 0 := by omega
    unfold memLimiterPut limiterPut
    split_ifs <;> simp_all

/-- Witness for `memlimiter_get_put`: limiter of capacity 10, `Get 5`
returns a 5-byte zero buffer, and `Put` of an unrelated 7-byte buffer
decrements the counter by 7. -/
theorem memlimiter_get_put_witness :
    (memLimiterGet ⟨⟨0, 10⟩⟩ 5 = .ok ⟨List.replicate 5 0, 5⟩ ⟨⟨5, 10⟩⟩ ∧
      ((5 : Int).toNat : Int) = 5) ∧
    (memLimiterPut ⟨⟨0, 10⟩⟩ ⟨List.replicate 7 1, 7⟩).1.l.inuse = 0 - 7 := by
  refine ⟨(memlimiter_get_put ⟨⟨0, 10⟩⟩ 5 (by decide) (by decide) (by decide)).1, ?_⟩
  have h := (memlimiter_get_put ⟨⟨0, 10⟩⟩ 5 (by decide) (by decide) (by decide)).2
    ⟨List.replicate 7 1, 7⟩
  simpa using h

/-! ## MemPool (mempool.go)

`NewMemPool(n, size)` allocates one contiguous backing array of `n*size`
bytes and slices it into `n` regions, region `i` starting at byte offset
`i*size`.  Addresses are modelled as offsets into that backing array, so
region `i`'s data pointer is `i * size`.  `Put(b)` compares only `b`'s data
pointer against each region's data pointer, in index order. -/

/-- The header of a Go byte slice as `MemPool.Put` sees it: the data
pointer, and the length — which `Put` never reads. -/
structure ByteSliceRef where
  ptr : Nat
  len : Nat
deriving Repr, DecidableEq

structure MemPool where
  noClear : Bool
  size : Nat
  bufs : List (List Int)
  indices : IndexPool
deriving Repr, DecidableEq

/-- The identity scan of `MemPool.Put`: the first region whose data pointer
equals `b`'s data pointer. -/
def memPoolFind (p : MemPool) (bptr : Nat) : Option Nat :=
  firstMatch (fun i => i * p.size == bptr) 0 p.bufs.length

/-- `MemPool.Put`: on an identity match at region `i`, zero the region
unless `NoClear`, then release index `i` through the inner `IndexPool`; if
no region's pointer matches, panic with the foreign-resource error, leaving
everything unchanged. -/
def memPoolPut (p : MemPool) (b : ByteSliceRef) : MemPool × Option PoolErr :=
  match memPoolFind p b.ptr with
  | none => (p, some .foreignResource)
  | some i =>
    let p1 := if p.noClear then p
              else { p with bufs := p.bufs.set i (List.replicate p.size 0) }
    let r := indexPoolPut p1.indices (i : Int)
    ({ p1 with indices := r.1 }, r.2)

/-- `MemPool.Get`: acquire an index from the inner pool and hand out that
region (its slice header and its current contents); block when no index is
free. -/
def memPoolGet (p : MemPool) : Option ((ByteSliceRef × List Int) × MemPool) :=
  match indexPoolGet p.indices with
  | none => none
  | some (i, ip) =>
    some ((⟨i * p.size, p.size⟩, p.bufs.getD i []), { p with indices := ip })

/-- The pool built by `NewMemPool` after its positivity check: `n` all-zero
regions of `size` bytes each, all indices free, clearing enabled
(`NoClear` defaults to `false`). -/
def memPoolInit (n size : Nat) : MemPool :=
  { noClear := false
    size := size
    bufs := List.replicate n (List.replicate size 0)
    indices := ⟨List.replicate n 0⟩ }

/-- `NewMemPool`: both arguments must be positive. -/
def newMemPool (n size : Int) : Option MemPool :=
  if n ≤ 0 ∨ size ≤ 0 then none else some (memPoolInit n.toNat size.toNat)

/-- C5: `Put` of a byte slice whose data pointer matches none of the pool's
regions panics with the foreign-resource error and returns the pool — every
slot state and every region's contents — unchanged. -/
theorem memPool_put_foreign (p : MemPool) (b : ByteSliceRef)
    (hforeign : ∀ i, i < p.bufs.length → b.ptr ≠ i * p.size) :
    memPoolPut p b = (p, some .foreignResource) := by
  have hnone : memPoolFind p b.ptr = none := by
    apply firstMatch_eq_none
    intro j hj hj2
    have := hforeign j (by omega)
    simp only [beq_eq_false_iff_ne, ne_eq]
    omega
  simp [memPoolPut, hnone]

/-- Witness for `memPool_put_foreign`: a 2-region pool of 3-byte buffers
(region pointers 0 and 3) rejects a slice whose pointer is 7. -/
theorem memPool_put_foreign_witness :
    memPoolPut (memPoolInit 2 3) ⟨7, 3⟩ = (memPoolInit 2 3, some .foreignResource) :=
  memPool_put_foreign (memPoolInit 2 3) ⟨7, 3⟩ (by decide)

/-- C10: identity matching in `Put` compares only the data pointer against
region starts.  A slice whose pointer lies strictly inside region `i`
(offset `0 < d < size`, as produced by reslicing like `b[1:]`) matches no
region and is rejected as foreign with the pool unchanged, even though its
storage is the pool's; a slice with the exact start pointer of region `i`
matches region `i` regardless of its length (so `b[:0]`, `b[:k]` are all
accepted — never the foreign-resource error). -/
theorem memPool_put_identity_by_start (p : MemPool) (i d k : Nat)
    (hsize : 0 < p.size) (hi : i < p.bufs.length) :
    (0 < d → d < p.size →
      memPoolPut p ⟨i * p.size + d, k⟩ = (p, some .foreignResource)) ∧
    (memPoolFind p (i * p.size) = some i ∧
      (memPoolPut p ⟨i * p.size, k⟩).2 ≠ some .foreignResource) := by
  constructor
  · intro hd0 hd1
    apply memPool_put_foreign
    intro j hj
    simp only [ne_eq]
    intro heq
    rcases Nat.lt_trichotomy j i with hlt | heqji | hgt
    · have : j * p.size < i * p.size := by
        exact (Nat.mul_lt_mul_right hsize).mpr hlt
      omega
    · subst heqji
      omega
    · have : (i + 1) * p.size ≤ j * p.size :=
        Nat.mul_le_mul_right _ (by omega)
      have : i * p.size + p.size ≤ j * p.size := by
        simpa [Nat.add_mul, Nat.one_mul] using this
      omega
  · have hfind : memPoolFind p (i * p.size) = some i := by
      apply firstMatch_eq_some (Nat.zero_le _) (by omega)
      · simp
      · intro j hj0 hji
        have : j * p.size < i * p.size := (Nat.mul_lt_mul_right hsize).mpr hji
        simp only [beq_eq_false_iff_ne, ne_eq]
        omega
    refine ⟨hfind, ?_⟩
    simp only [memPoolPut, hfind]
    intro hcontra
    have h2 := (indexPoolPut (if p.noClear then p
      else { p with bufs := p.bufs.set i (List.replicate p.size 0) }).indices (i : Int)).2
    revert hcontra
    cases hput : (indexPoolPut (if p.noClear then p
        else { p with bufs := p.bufs.set i (List.replicate p.size 0) }).indices (i : Int)).2 with
    | none => simp
    | some e =>
      -- the inner IndexPool.Put can only fail with outOfRange or
      -- doubleRelease, never foreignResource
      have : e ≠ PoolErr.foreignResource := by
        revert hput
        unfold indexPoolPut
        split_ifs <;> simp <;> rintro rfl <;> simp
      simp only [Option.some.injEq]
      intro hcontra2
      exact this hcontra2

/-- Witness for `memPool_put_identity_by_start` on a 2-region pool of 2-byte
buffers: the pointer one byte into region 0 is rejected as foreign, while
region 1's exact start pointer (with any slice length, here 0) passes the
identity scan. -/
theorem memPool_put_identity_by_start_witness :
    memPoolPut (memPoolInit 2 2) ⟨0 * (memPoolInit 2 2).size + 1, 0⟩ =
      (memPoolInit 2 2, some .foreignResource) ∧
    (memPoolFind (memPoolInit 2 2) (1 * (memPoolInit 2 2).size) = some 1 ∧
      (memPoolPut (memPoolInit 2 2) ⟨1 * (memPoolInit 2 2).size, 0⟩).2 ≠
        some .foreignResource) :=
  ⟨(memPool_put_identity_by_start (memPoolInit 2 2) 0 1 0
      (by decide) (by decide)).1 (by decide) (by decide),
   (memPool_put_identity_by_start (memPoolInit 2 2) 1 1 0
      (by decide) (by decide)).2⟩

/-! ## Clearing policy (claim C6)

A small operational model over `MemPool`: callers interleave `Get`, writes
into regions they currently hold (between `Get` and `Put`, per the contract
"callers must not modify the contents of a buffer after returning it"), and
`Put`.  The invariant is that every Free region is all-zero. -/

theorem indexPoolGet_eq_some {q : IndexPool} {i : Nat} {q2 : IndexPool}
    (h : indexPoolGet q = some (i, q2)) :
    q.indices[i]? = some 0 ∧ i < q.indices.length ∧ q2 = ⟨q.indices.set i 1⟩ := by
  unfold indexPoolGet at h
  cases hf : firstMatch (fun j => q.indices[j]? == some 0) 0 q.indices.length with
  | none => rw [hf] at h; cases h
  | some i2 =>
    rw [hf] at h
    simp only [Option.some.injEq, Prod.mk.injEq] at h
    obtain ⟨hi, hq⟩ := h
    subst hi
    obtain ⟨hpred, _, hlt⟩ := firstMatch_some hf
    rw [beq_iff_eq] at hpred
    exact ⟨hpred, by omega, hq.symm⟩

theorem memPoolGet_eq_some {p : MemPool} {b : ByteSliceRef} {c : List Int}
    {p2 : MemPool} (h : memPoolGet p = some ((b, c), p2)) :
    ∃ i ip, indexPoolGet p.indices = some (i, ip) ∧
      b = ⟨i * p.size, p.size⟩ ∧ c = p.bufs.getD i [] ∧
      p2 = { p with indices := ip } := by
  unfold memPoolGet at h
  cases hg : indexPoolGet p.indices with
  | none => rw [hg] at h; cases h
  | some y =>
    obtain ⟨i, ip⟩ := y
    rw [hg] at h
    simp only [Option.some.injEq, Prod.mk.injEq] at h
    obtain ⟨⟨hb, hc⟩, hp2⟩ := h
    exact ⟨i, ip, rfl, hb.symm, hc.symm, hp2.symm⟩

/-- One event in the life of a `MemPool`: an acquisition, a write by the
current holder of slot `i` (only possible while the slot is Claimed), or a
release of some byte slice. -/
inductive MemPoolOp where
  | get
  | write (i : Nat) (c : List Int)
  | put (b : ByteSliceRef)
deriving Repr, DecidableEq

def memPoolStep (p : MemPool) : MemPoolOp → MemPool
  | .get =>
    match memPoolGet p with
    | some (_, p2) => p2
    | none => p
  | .write i c =>
    if p.indices.indices[i]? = some 1 ∧ c.length = p.size then
      { p with bufs := p.bufs.set i c }
    else p
  | .put b => (memPoolPut p b).1

def memPoolRun (p : MemPool) (ops : List MemPoolOp) : MemPool :=
  ops.foldl memPoolStep p

/-- The clearing invariant: clearing enabled, and every Free region (flag 0)
holds all zero bytes. -/
def memPoolClearInv (p : MemPool) : Prop :=
  p.noClear = false ∧
  ∀ i : Nat, p.indices.indices[i]? = some (0 : Int) →
    p.bufs[i]? = some (List.replicate p.size (0 : Int))

theorem memPoolStep_clearInv {p : MemPool} (op : MemPoolOp)
    (hinv : memPoolClearInv p) :
    memPoolClearInv (memPoolStep p op) ∧ (memPoolStep p op).size = p.size := by
  obtain ⟨hnc, hfree⟩ := hinv
  cases op with
  | get =>
    simp only [memPoolStep]
    cases h : memPoolGet p with
    | none => exact ⟨⟨hnc, hfree⟩, rfl⟩
    | some y =>
      obtain ⟨⟨b, c⟩, p2⟩ := y
      obtain ⟨i, ip, hg, _, _, hp2⟩ := memPoolGet_eq_some h
      obtain ⟨hflag, hlt, hip⟩ := indexPoolGet_eq_some hg
      subst hp2
      subst hip
      refine ⟨⟨hnc, ?_⟩, rfl⟩
      intro j hj
      simp only at hj
      by_cases hij : i = j
      · subst hij
        rw [List.getElem?_set_self hlt] at hj
        cases hj
      · rw [List.getElem?_set_ne hij] at hj
        exact hfree j hj
  | write i c =>
    simp only [memPoolStep]
    split_ifs with hw
    · obtain ⟨hclaimed, _⟩ := hw
      refine ⟨⟨hnc, ?_⟩, rfl⟩
      intro j hj
      simp only at hj
      have hij : i ≠ j := by
        intro e
        subst e
        rw [hclaimed] at hj
        cases hj
      simp only [List.getElem?_set_ne hij]
      exact hfree j hj
    · exact ⟨⟨hnc, hfree⟩, rfl⟩
  | put b =>
    simp only [memPoolStep, memPoolPut]
    cases hf : memPoolFind p b.ptr with
    | none => exact ⟨⟨hnc, hfree⟩, rfl⟩
    | some i =>
      obtain ⟨_, _, hlt⟩ := firstMatch_some hf
      simp only [hnc, Bool.false_eq_true, if_false]
      -- after the clear, region i is all-zero whatever the flags become;
      -- indexPoolPut only touches the flags
      refine ⟨⟨rfl, ?_⟩, trivial⟩
      intro j hj
      simp only at hj ⊢
      by_cases hij : i = j
      · subst hij
        rw [List.getElem?_set_self (by omega)]
      · rw [List.getElem?_set_ne hij]
        apply hfree j
        -- the flag of j is unchanged by indexPoolPut at index i
        revert hj
        unfold indexPoolPut
        split_ifs with h1 h2 h3
        · exact fun hj => hj
        · exact fun hj => hj
        · simp only
          intro hj
          rw [List.getElem?_set_ne (by
            intro e
            apply hij
            have : ((i : Int)).toNat = i := Int.toNat_natCast i
            omega)] at hj
          exact hj
        · exact fun hj => hj

theorem memPoolRun_clearInv {p : MemPool} (ops : List MemPoolOp)
    (hinv : memPoolClearInv p) :
    memPoolClearInv (memPoolRun p ops) ∧ (memPoolRun p ops).size = p.size := by
  induction ops generalizing p with
  | nil => exact ⟨hinv, rfl⟩
  | cons op rest ih =>
    have hstep := memPoolStep_clearInv op hinv
    have := ih hstep.1
    exact ⟨this.1, this.2.trans hstep.2⟩

theorem memPoolInit_clearInv (n size : Nat) :
    memPoolClearInv (memPoolInit n size) := by
  refine ⟨rfl, ?_⟩
  intro i hi
  simp only [memPoolInit] at hi ⊢
  rw [List.getElem?_replicate] at hi ⊢
  split_ifs at hi with h
  simp [h]

/-! ## FixedPool (the `mem` package variant)

`FixedPool.Get` scans for a buffer whose `Len` header equals its `Cap`
(free), CASes the `Len` to 0 to claim it, zero-fills the region and returns
it.  `lens` models the per-buffer atomic `Len` header; capacity is `size`. -/

structure FixedPool where
  size : Nat
  bufs : List (List Int)
  lens : List Nat
deriving Repr, DecidableEq

/-- `FixedPool.Get`: claim the first free buffer, clear its contents before
returning; block (`none`) when a full pass finds nothing free. -/
def fixedPoolGet (p : FixedPool) : Option (List Int × FixedPool) :=
  match firstMatch (fun i => p.lens[i]? == some p.size) 0 p.bufs.length with
  | none => none
  | some i =>
    some (List.replicate p.size 0,
      { p with bufs := p.bufs.set i (List.replicate p.size 0),
               lens := p.lens.set i 0 })

/-- C6: with the clearing policy, every buffer a `Get` returns is all-zero
over the full region, regardless of what holders wrote before releasing.
For a `MemPool` with `NoClear = false` this holds in every state reachable
from construction by `Get` / holder-write / `Put` events (`Put` zero-fills
the matched region before freeing it); for a `FixedPool` it holds
unconditionally, since `Get` itself zero-fills before returning. -/
theorem clearing_pool_get_all_zero :
    (∀ (n size : Nat) (ops : List MemPoolOp) (b : ByteSliceRef)
        (content : List Int) (p2 : MemPool),
      memPoolGet (memPoolRun (memPoolInit n size) ops) = some ((b, content), p2) →
      content = List.replicate size 0) ∧
    (∀ (q : FixedPool) (content : List Int) (q2 : FixedPool),
      fixedPoolGet q = some (content, q2) → content = List.replicate q.size 0) := by
  constructor
  · intro n size ops b content p2 hget
    obtain ⟨⟨hnc, hfree⟩, hsize⟩ :=
      memPoolRun_clearInv ops (memPoolInit_clearInv n size)
    obtain ⟨i, ip, hg, _, hc, _⟩ := memPoolGet_eq_some hget
    obtain ⟨hflag, hlt, _⟩ := indexPoolGet_eq_some hg
    have hzero := hfree i hflag
    rw [hc, List.getD_eq_getElem?_getD, hzero]
    simp only [Option.getD_some]
    rw [hsize]
    rfl
  · intro q content q2 hget
    unfold fixedPoolGet at hget
    cases hf : firstMatch (fun i => q.lens[i]? == some q.size) 0 q.bufs.length with
    | none => rw [hf] at hget; cases hget
    | some i =>
      rw [hf] at hget
      simp only [Option.some.injEq, Prod.mk.injEq] at hget
      exact hget.1.symm

/-- Witness for `clearing_pool_get_all_zero`: a 2-slot pool of 2-byte
buffers where the holder of slot 0 writes `[5, 5]` and releases; the next
`Get` still returns an all-zero buffer.  Likewise a `FixedPool` whose
claimed slot 0 holds dirty bytes returns zeros on `Get`. -/
theorem clearing_pool_get_all_zero_witness :
    [(0 : Int), 0] = List.replicate 2 0 ∧ [(0 : Int), 0] = List.replicate 2 0 :=
  ⟨clearing_pool_get_all_zero.1 2 2
      [.get, .write 0 [5, 5], .put ⟨0, 2⟩] ⟨2, 2⟩ [0, 0]
      { noClear := false, size := 2, bufs := [[0, 0], [0, 0]],
        indices := ⟨[1, 1]⟩ } (by decide),
   clearing_pool_get_all_zero.2 ⟨2, [[7, 7], [0, 0]], [2, 2]⟩ [0, 0]
      ⟨2, [[0, 0], [0, 0]], [0, 2]⟩ (by decide)⟩

end PoolSpec
